import Mathlib

/-!
Shallow embedding of the document indexing and retrieval engine of
`src/api/mcp.ts` (Sitecore design MCP server).

JavaScript strings are modelled as `List Char`; the JavaScript whitespace
class `\s` is modelled by its ASCII members that the repository's documents
can contain (space, tab, newline, carriage return).  Fallible code
(`throw`) is modelled with `Except`; the module-level mutable
`documentCache : Map` is modelled by explicit state passing of an
association list; the filesystem (`readFileSync`/`existsSync`) and the
external `pdf-parse` collaborator are modelled as an explicit environment
record.
-/

/-- Model of the JS `\s` character class (ASCII members), used by
`String.prototype.trim`, `split(/\s+/)` and the sentence splitting regex. -/
def isWs (c : Char) : Bool :=
  c = ' ' || c = '\t' || c = '\n' || c = '\r'

/-- Sentence-terminal punctuation of the chunking regex `/(?<=[.!?])\s+/`. -/
def isTerm (c : Char) : Bool :=
  c = '.' || c = '!' || c = '?'

/-- Model of `String.prototype.trim`: drop whitespace from both ends. -/
def trimChars (l : List Char) : List Char :=
  ((l.dropWhile isWs).reverse.dropWhile isWs).reverse

/-- `startsList l p` models `l` starting with the segment `p`
(the prefix test used to implement substring search). -/
def startsList : List Char → List Char → Bool
  | _, [] => true
  | [], _ :: _ => false
  | c :: cs, p :: ps => c = p && startsList cs ps

/-- Model of `String.prototype.includes`: `pat` occurs contiguously in `hay`. -/
def containsSub : List Char → List Char → Bool
  | hay, pat =>
    startsList hay pat ||
      match hay with
      | [] => false
      | _ :: t => containsSub t pat

/-- ASCII letter test, modelling the `[A-Za-z]` class of the drive-letter
regex in `validateFilename`. -/
def isAsciiAlphaChar (c : Char) : Bool :=
  ('A' ≤ c && c ≤ 'Z') || ('a' ≤ c && c ≤ 'z')

/-- Error kinds thrown by the engine (the source throws `Error` with
distinguishing messages; the spec names them ValidationError, NotFoundError,
ParseError and ExtractionError). -/
inductive Err
  | validation
  | notFound
  | emptyFile
  | extraction
deriving DecidableEq, Repr

/-- Model of the `/^[A-Za-z]:/` drive-letter test in `validateFilename`. -/
def driveLetterStart : List Char → Bool
  | c1 :: c2 :: _ => isAsciiAlphaChar c1 && c2 = ':'
  | _ => false

/-- Model of `validateFilename` (src/api/mcp.ts lines 47-61): rejects the
empty string, any occurrence of `..`, `/` or `\`, a leading `/`, and a
drive-letter prefix. -/
def validateFilename (f : List Char) : Except Err Unit :=
  if f.length = 0 then .error .validation
  else if containsSub f ['.', '.'] || containsSub f ['/'] || containsSub f ['\\'] then
    .error .validation
  else if startsList f ['/'] || driveLetterStart f then .error .validation
  else .ok ()

/-- The spec's description (§4.5 / §8) of which filenames must be rejected,
written from the spec's words for comparison with the code's
`validateFilename`. -/
def specBadFilename (f : List Char) : Prop :=
  f = [] ∨ (∃ l r, f = l ++ '.' :: '.' :: r) ∨ '/' ∈ f ∨ '\\' ∈ f ∨
    (∃ r, f = '/' :: r) ∨ (∃ c r, f = c :: ':' :: r ∧ isAsciiAlphaChar c = true)

lemma startsList_iff (hay pat : List Char) :
    startsList hay pat = true ↔ ∃ r, hay = pat ++ r := by
  induction pat generalizing hay with
  | nil => simp [startsList]
  | cons p ps ih =>
    cases hay with
    | nil => simp [startsList]
    | cons c cs =>
      simp only [startsList, Bool.and_eq_true, decide_eq_true_eq, ih, List.cons_append,
        List.cons.injEq]
      constructor
      · rintro ⟨rfl, r, rfl⟩; exact ⟨r, rfl, rfl⟩
      · rintro ⟨r, rfl, rfl⟩; exact ⟨rfl, r, rfl⟩

lemma containsSub_iff (hay pat : List Char) :
    containsSub hay pat = true ↔ ∃ l r, hay = l ++ pat ++ r := by
  induction hay with
  | nil =>
    rw [containsSub]
    simp only [Bool.or_false, startsList_iff]
    constructor
    · rintro ⟨r, h⟩; exact ⟨[], r, by simpa using h⟩
    · rintro ⟨l, r, h⟩
      have h2 := List.append_eq_nil.mp h.symm
      have h3 := List.append_eq_nil.mp h2.1
      exact ⟨r, by simp [h3.2, h2.2]⟩
  | cons c t ih =>
    rw [containsSub]
    simp only [Bool.or_eq_true, startsList_iff, ih]
    constructor
    · rintro (⟨r, h⟩ | ⟨l, r, h⟩)
      · exact ⟨[], r, by simpa using h⟩
      · exact ⟨c :: l, r, by simp [h]⟩
    · rintro ⟨l, r, h⟩
      cases l with
      | nil => exact Or.inl ⟨r, by simpa using h⟩
      | cons x xs =>
        right
        simp only [List.cons_append, List.append_assoc] at h
        injection h with h1 h2
        exact ⟨xs, r, by simp [h2]⟩

lemma containsSub_singleton_iff (hay : List Char) (a : Char) :
    containsSub hay [a] = true ↔ a ∈ hay := by
  rw [containsSub_iff]
  constructor
  · rintro ⟨l, r, rfl⟩; simp
  · intro h
    rcases List.append_of_mem h with ⟨l, r, rfl⟩
    exact ⟨l, r, by simp⟩

lemma containsSub_dots_iff (hay : List Char) :
    containsSub hay ['.', '.'] = true ↔ ∃ l r, hay = l ++ '.' :: '.' :: r := by
  rw [containsSub_iff]
  constructor
  · rintro ⟨l, r, rfl⟩; exact ⟨l, r, by simp⟩
  · rintro ⟨l, r, rfl⟩; exact ⟨l, r, by simp⟩

lemma driveLetterStart_iff (f : List Char) :
    driveLetterStart f = true ↔ ∃ c r, f = c :: ':' :: r ∧ isAsciiAlphaChar c = true := by
  match f with
  | [] => simp [driveLetterStart]
  | [c] => simp [driveLetterStart]
  | c1 :: c2 :: rest =>
    simp only [driveLetterStart, Bool.and_eq_true, decide_eq_true_eq]
    constructor
    · rintro ⟨h1, rfl⟩; exact ⟨c1, rest, rfl, h1⟩
    · rintro ⟨c, r, h, hc⟩
      injection h with e1 e2
      injection e2 with e3 e4
      subst e1
      exact ⟨hc, e3⟩

lemma startsList_slash_iff (f : List Char) :
    startsList f ['/'] = true ↔ ∃ r, f = '/' :: r := by
  rw [startsList_iff]
  constructor
  · rintro ⟨r, rfl⟩; exact ⟨r, rfl⟩
  · rintro ⟨r, rfl⟩; exact ⟨r, rfl⟩

/-- C4: `validate(filename)` fails with ValidationError exactly when the
filename is the empty string, contains `..`, contains a path separator `/`
or `\`, or is an absolute path (leading `/` or a drive-letter prefix); for
every other filename it succeeds. -/
theorem validateFilename_fails_iff (f : List Char) :
    (validateFilename f = Except.error Err.validation ↔ specBadFilename f) ∧
      (validateFilename f = Except.ok () ↔ ¬ specBadFilename f) := by
  have key : validateFilename f = Except.error Err.validation ↔ specBadFilename f := by
    unfold validateFilename
    split_ifs with h1 h2 h3
    · have hb : specBadFilename f := Or.inl (List.length_eq_zero.mp h1)
      simp [hb]
    · have hb : specBadFilename f := by
        rcases (by simpa using h2 :
            (containsSub f ['.', '.'] = true ∨ containsSub f ['/'] = true) ∨
              containsSub f ['\\'] = true) with (h | h) | h
        · exact Or.inr (Or.inl ((containsSub_dots_iff f).mp h))
        · exact Or.inr (Or.inr (Or.inl ((containsSub_singleton_iff f '/').mp h)))
        · exact Or.inr (Or.inr (Or.inr (Or.inl ((containsSub_singleton_iff f '\\').mp h))))
      simp [hb]
    · have hb : specBadFilename f := by
        rcases (by simpa using h3 :
            startsList f ['/'] = true ∨ driveLetterStart f = true) with h | h
        · exact Or.inr (Or.inr (Or.inr (Or.inr (Or.inl ((startsList_slash_iff f).mp h)))))
        · exact Or.inr (Or.inr (Or.inr (Or.inr (Or.inr ((driveLetterStart_iff f).mp h)))))
      simp [hb]
    · have hb : ¬ specBadFilename f := by
        rintro (h | h | h | h | h | h)
        · exact h1 (by simp [h])
        · exact h2 (by simp [(containsSub_dots_iff f).mpr h])
        · exact h2 (by simp [(containsSub_singleton_iff f '/').mpr h])
        · exact h2 (by simp [(containsSub_singleton_iff f '\\').mpr h])
        · exact h3 (by simp [(startsList_slash_iff f).mpr h])
        · exact h3 (by simp [(driveLetterStart_iff f).mpr h])
      simp [hb]
  refine ⟨key, ?_, ?_⟩
  · intro hok hbad
    have := key.mpr hbad
    rw [hok] at this
    cases this
  · intro hnb
    by_cases hres : validateFilename f = Except.ok ()
    · exact hres
    · exfalso
      apply hnb
      apply key.mp
      unfold validateFilename at hres ⊢
      split_ifs at hres ⊢ with h1 h2 h3
      · rfl
      · rfl
      · rfl
      · exact absurd rfl hres

/-- Head-of-list whitespace test (the lookahead used when deciding whether a
sentence boundary regex match starts at the next character). -/
def wsHead : List Char → Bool
  | [] => false
  | c :: _ => isWs c

/-- Model of `text.split(/(?<=[.!?])\s+/)`: a maximal whitespace run that is
immediately preceded by sentence-terminal punctuation separates sentences.
`acc` holds the (reversed) characters of the sentence being accumulated;
`skipping` records that the walk is inside a delimiter's whitespace run
(equivalent to dropping the run at once, but structurally recursive). -/
def sentGo : Bool → List Char → List Char → List (List Char)
  | _, acc, [] => [acc.reverse]
  | skipping, acc, c :: rest =>
    if skipping && isWs c then sentGo true acc rest
    else if isTerm c && wsHead rest then (acc.reverse ++ [c]) :: sentGo true [] rest
    else sentGo false (c :: acc) rest

def splitSentences (text : List Char) : List (List Char) :=
  sentGo false [] text

/-- Model of `currentChunk.split(" ")` (split on every single space). -/
def splitOnSpaceAux : List Char → List Char → List (List Char)
  | cur, [] => [cur.reverse]
  | cur, c :: rest =>
    if c = ' ' then cur.reverse :: splitOnSpaceAux [] rest
    else splitOnSpaceAux (c :: cur) rest

def splitOnSpace (l : List Char) : List (List Char) :=
  splitOnSpaceAux [] l

/-- Model of `Array.prototype.join(" ")`. -/
def joinSpace : List (List Char) → List Char
  | [] => []
  | [x] => x
  | x :: y :: ys => x ++ ' ' :: joinSpace (y :: ys)

/-- Model of `Array.prototype.join(sep)` for a general separator. -/
def joinSep (sep : List Char) : List (List Char) → List Char
  | [] => []
  | [x] => x
  | x :: y :: ys => x ++ sep ++ joinSep sep (y :: ys)

/-- Model of `words.slice(-n)` as called in `chunkText`: JavaScript's
`slice(-0)` equals `slice(0)` and returns the whole array; for `n ≥ 1` it
returns the last `min n length` elements. -/
def jsSliceLast (l : List (List Char)) (n : Nat) : List (List Char) :=
  if n = 0 then l else l.drop (l.length - n)

/-- State of `chunkText`'s sentence-accumulation loop. -/
structure ChunkState where
  chunks : List (List Char)
  current : List Char
deriving DecidableEq, Repr

/-- One iteration of the `for (const sentence of sentences)` loop of
`chunkText` (src/api/mcp.ts lines 72-81). -/
def chunkStep (chunkSize overlap : Nat) (st : ChunkState) (sentence : List Char) : ChunkState :=
  if chunkSize < st.current.length + sentence.length && 0 < st.current.length then
    { chunks := st.chunks ++ [trimChars st.current]
      current :=
        joinSpace (jsSliceLast (splitOnSpace st.current) (overlap / 5)) ++ ' ' :: sentence }
  else
    { chunks := st.chunks
      current := st.current ++ (if st.current.isEmpty then [] else [' ']) ++ sentence }

/-- Model of `chunkText` (src/api/mcp.ts lines 66-88): split into sentences,
accumulate them into chunks of at most `chunkSize` characters (except for
oversized single sentences), seeding each new chunk with the trailing
`⌊overlap/5⌋` words of the closed one, and flush a final non-blank buffer. -/
def chunkText (text : List Char) (chunkSize overlap : Nat) : List (List Char) :=
  let st := (splitSentences text).foldl (chunkStep chunkSize overlap) ⟨[], []⟩
  if (trimChars st.current).isEmpty then st.chunks else st.chunks ++ [trimChars st.current]

lemma isTerm_not_ws {c : Char} (h : isTerm c = true) : isWs c = false := by
  simp only [isTerm, Bool.or_eq_true, decide_eq_true_eq] at h
  rcases h with (h | h) | h <;> subst h <;> decide

lemma dropWhile_all_iff (p : Char → Bool) (l : List Char) :
    (∀ x ∈ l.dropWhile p, p x = true) ↔ (∀ x ∈ l, p x = true) := by
  induction l with
  | nil => simp
  | cons c t ih =>
    by_cases hc : p c
    · rw [List.dropWhile_cons_of_pos hc]
      simp only [List.mem_cons, ih]
      constructor
      · rintro h x (rfl | hx)
        · exact hc
        · exact h x hx
      · intro h x hx; exact h x (Or.inr hx)
    · rw [List.dropWhile_cons_of_neg hc]

lemma trimChars_eq_nil_iff (l : List Char) :
    trimChars l = [] ↔ ∀ c ∈ l, isWs c = true := by
  unfold trimChars
  simp only [List.reverse_eq_nil_iff, List.dropWhile_eq_nil_iff, List.mem_reverse]
  exact dropWhile_all_iff isWs l

lemma trimChars_ne_nil_of_suffix (x y : List Char) (h : trimChars y ≠ []) :
    trimChars (x ++ y) ≠ [] := by
  intro hall
  apply h
  rw [trimChars_eq_nil_iff] at hall ⊢
  exact fun c hc => hall c (List.mem_append.mpr (Or.inr hc))

lemma getLast?_dropWhile (p : Char → Bool) (l : List Char) :
    l.dropWhile p = [] ∨ (l.dropWhile p).getLast? = l.getLast? := by
  induction l with
  | nil => exact Or.inl rfl
  | cons c t ih =>
    by_cases hc : p c
    · rcases ih with h | h
      · exact Or.inl (by rw [List.dropWhile_cons_of_pos hc]; exact h)
      · cases t with
        | nil => exact Or.inl (by simp [List.dropWhile_cons_of_pos hc])
        | cons a as =>
          right
          rw [List.dropWhile_cons_of_pos hc, h, List.getLast?_cons_cons]
    · rw [List.dropWhile_cons_of_neg hc]
      exact Or.inr rfl

lemma head?_trimChars {l : List Char} {c : Char} (h : (trimChars l).head? = some c) :
    isWs c = false := by
  unfold trimChars at h
  rw [List.head?_reverse] at h
  rcases getLast?_dropWhile isWs ((l.dropWhile isWs).reverse) with hnil | heq
  · rw [hnil] at h; cases h
  · rw [heq, List.getLast?_reverse] at h
    have := List.head?_dropWhile_not isWs l
    rw [h] at this
    exact this

lemma getLast?_trimChars {l : List Char} {c : Char} (h : (trimChars l).getLast? = some c) :
    isWs c = false := by
  unfold trimChars at h
  rw [List.getLast?_reverse] at h
  have := List.head?_dropWhile_not isWs ((l.dropWhile isWs).reverse)
  rw [h] at this
  exact this

lemma dropWhile_eq_self_of_head (p : Char → Bool) (l : List Char)
    (h : ∀ c, l.head? = some c → p c = false) : l.dropWhile p = l := by
  cases l with
  | nil => rfl
  | cons c t => exact List.dropWhile_cons_of_neg (by simp [h c rfl])

lemma trimChars_eq_self (l : List Char)
    (h1 : ∀ c, l.head? = some c → isWs c = false)
    (h2 : ∀ c, l.getLast? = some c → isWs c = false) : trimChars l = l := by
  unfold trimChars
  rw [dropWhile_eq_self_of_head isWs l h1]
  rw [dropWhile_eq_self_of_head isWs l.reverse (by simpa using h2)]
  exact List.reverse_reverse l

lemma trimChars_idem (l : List Char) : trimChars (trimChars l) = trimChars l :=
  trimChars_eq_self (trimChars l) (fun _ h => head?_trimChars h)
    (fun _ h => getLast?_trimChars h)

/-- Every sentence that is followed by another sentence contains a
non-whitespace character (its closing `.`/`!`/`?`); only the final sentence
of a split can be blank. -/
def goodTail : List (List Char) → Prop
  | [] => True
  | [_] => True
  | a :: b :: r => trimChars a ≠ [] ∧ goodTail (b :: r)

lemma sentGo_ne_nil : ∀ (l : List Char) (skipping : Bool) (acc : List Char),
    sentGo skipping acc l ≠ [] := by
  intro l
  induction l with
  | nil => intro skipping acc; simp [sentGo]
  | cons c rest ih =>
    intro skipping acc
    rw [sentGo]
    split_ifs with h1 h2
    · exact ih true acc
    · simp
    · exact ih false (c :: acc)

lemma mem_self_append_singleton (a : Char) (l : List Char) : a ∈ l ++ [a] := by
  simp

lemma trimChars_snoc_term_ne_nil {c : Char} (acc : List Char) (hc : isTerm c = true) :
    trimChars (acc ++ [c]) ≠ [] := by
  intro hall
  have h2 := (trimChars_eq_nil_iff _).mp hall c (mem_self_append_singleton c acc)
  rw [isTerm_not_ws hc] at h2
  cases h2

lemma trimChars_ne_nil_append_cons (x : List Char) (c : Char) (s : List Char)
    (hs : trimChars s ≠ []) : trimChars (x ++ c :: s) ≠ [] := by
  have h : x ++ c :: s = (x ++ [c]) ++ s := by simp
  rw [h]
  exact trimChars_ne_nil_of_suffix _ s hs

lemma sentGo_goodTail : ∀ (l : List Char) (skipping : Bool) (acc : List Char),
    goodTail (sentGo skipping acc l) := by
  intro l
  induction l with
  | nil => intro skipping acc; simp [sentGo, goodTail]
  | cons c rest ih =>
    intro skipping acc
    rw [sentGo]
    split_ifs with h1 h2
    · exact ih true acc
    · rcases List.exists_cons_of_ne_nil (sentGo_ne_nil rest true []) with ⟨h, t, heq⟩
      rw [heq]
      refine ⟨?_, heq ▸ ih true []⟩
      exact trimChars_snoc_term_ne_nil acc.reverse (by
        simpa using (Bool.and_eq_true .. ▸ h2 : _ ∧ _).1)
    · exact ih false (c :: acc)

lemma goodTail_tail {s : List Char} {r : List (List Char)} (h : goodTail (s :: r)) :
    goodTail r := by
  cases r with
  | nil => trivial
  | cons b t => exact h.2

lemma goodTail_head {s : List Char} {b : List Char} {t : List (List Char)}
    (h : goodTail (s :: b :: t)) : trimChars s ≠ [] :=
  h.1

/-- Invariant of the `chunkText` loop: already-closed chunks are non-blank
trimmed strings, and the running buffer is blank only if it is empty —
except possibly while consuming the final sentence, whose flush is guarded
by `trim`. -/
lemma chunk_fold_ok (cs ov : Nat) :
    ∀ (l : List (List Char)) (st : ChunkState),
      goodTail l →
      (∀ c ∈ st.chunks, c ≠ [] ∧ trimChars c = c) →
      (st.current = [] ∨ trimChars st.current ≠ [] ∨ l = []) →
      ∀ c ∈ (l.foldl (chunkStep cs ov) st).chunks, c ≠ [] ∧ trimChars c = c := by
  intro l
  induction l with
  | nil => intro st _ h1 _ c hc; exact h1 c hc
  | cons s rest ih =>
    intro st hgood h1 h2
    rw [List.foldl_cons]
    apply ih
    · exact goodTail_tail hgood
    · -- chunks of the stepped state
      intro c hc
      unfold chunkStep at hc
      split_ifs at hc with hcond
      · simp only [List.mem_append, List.mem_singleton] at hc
        rcases hc with hc | rfl
        · exact h1 c hc
        · have hne : st.current ≠ [] := by
            intro h0
            rw [h0] at hcond
            simp at hcond
          have htr : trimChars st.current ≠ [] := by
            rcases h2 with h | h | h
            · exact absurd h hne
            · exact h
            · cases h
          exact ⟨htr, trimChars_idem st.current⟩
      all_goals exact h1 c hc
    · -- the new buffer
      cases rest with
      | nil => exact Or.inr (Or.inr rfl)
      | cons b t =>
        have hs : trimChars s ≠ [] := goodTail_head hgood
        refine Or.inr (Or.inl ?_)
        unfold chunkStep
        split_ifs with hc1 hc2
        · exact trimChars_ne_nil_append_cons _ ' ' s hs
        · exact trimChars_ne_nil_of_suffix _ s hs
        · exact trimChars_ne_nil_of_suffix _ s hs

/-- C9: every chunk produced by the chunker, for every input text and all
chunking parameters, is a non-empty string with no leading or trailing
whitespace (a fixed point of `trim`). -/
theorem chunkText_chunks_nonBlank_trimmed (text : List Char) (chunkSize overlap : Nat) :
    ∀ c ∈ chunkText text chunkSize overlap, c ≠ [] ∧ trimChars c = c := by
  intro c hc
  simp only [chunkText] at hc
  split_ifs at hc with hflush
  · exact chunk_fold_ok chunkSize overlap (splitSentences text) ⟨[], []⟩
      (sentGo_goodTail text false []) (by intro x hx; cases hx) (Or.inl rfl) c hc
  · simp only [List.mem_append, List.mem_singleton] at hc
    rcases hc with hc | rfl
    · exact chunk_fold_ok chunkSize overlap (splitSentences text) ⟨[], []⟩
        (sentGo_goodTail text false []) (by intro x hx; cases hx) (Or.inl rfl) c hc
    · refine ⟨?_, trimChars_idem _⟩
      intro h0
      rw [h0] at hflush
      simp at hflush

/-- Witness for C9 at a concrete input: the first chunk of
`chunkText "Hi. Yo." 5 0` is non-empty and trimmed. -/
theorem chunkText_chunks_nonBlank_trimmed_witness :
    "Hi.".data ≠ [] ∧ trimChars "Hi.".data = "Hi.".data :=
  chunkText_chunks_nonBlank_trimmed "Hi. Yo.".data 5 0 "Hi.".data (by decide)

lemma splitOnSpaceAux_ne_nil : ∀ (l cur : List Char), splitOnSpaceAux cur l ≠ [] := by
  intro l
  induction l with
  | nil => intro cur; simp [splitOnSpaceAux]
  | cons c rest ih =>
    intro cur
    rw [splitOnSpaceAux]
    split_ifs with h
    · simp
    · exact ih (c :: cur)

lemma joinSpace_cons_cons (x y : List Char) (ys : List (List Char)) :
    joinSpace (x :: y :: ys) = x ++ ' ' :: joinSpace (y :: ys) := rfl

lemma joinSpace_splitOnSpaceAux : ∀ (l cur : List Char),
    joinSpace (splitOnSpaceAux cur l) = cur.reverse ++ l := by
  intro l
  induction l with
  | nil => intro cur; simp [splitOnSpaceAux, joinSpace]
  | cons c rest ih =>
    intro cur
    rw [splitOnSpaceAux]
    split_ifs with h
    · rcases List.exists_cons_of_ne_nil (splitOnSpaceAux_ne_nil rest []) with ⟨a, as, heq⟩
      rw [heq, joinSpace_cons_cons, ← heq, ih []]
      subst h
      simp
    · rw [ih (c :: cur)]
      simp

/-- With any separator semantics: `split(" ")` followed by `join(" ")` is the
identity, so `slice(-0)` (which returns the whole word array) makes the
"overlap" seed of the next chunk the entire previous buffer. -/
lemma joinSpace_splitOnSpace (l : List Char) : joinSpace (splitOnSpace l) = l := by
  rw [splitOnSpace, joinSpace_splitOnSpaceAux]
  simp

lemma chunkStep_zero_current (cs : Nat) (st : ChunkState) (s : List Char)
    (h : st.current ≠ []) : (chunkStep cs 0 st s).current = st.current ++ ' ' :: s := by
  unfold chunkStep
  split_ifs with h1 h2
  · simp [jsSliceLast, joinSpace_splitOnSpace]
  · exact absurd (List.isEmpty_iff.mp h2) h
  · simp

lemma chunkStep_zero_chunks_of_nil (cs : Nat) (s : List Char) :
    chunkStep cs 0 ⟨[], []⟩ s = ⟨[], s⟩ := by
  unfold chunkStep
  simp

lemma fold_zero_current (cs : Nat) : ∀ (l : List (List Char)) (st : ChunkState),
    st.current ≠ [] →
    (List.foldl (chunkStep cs 0) st l).current =
      st.current ++ (l.map (fun s => ' ' :: s)).join := by
  intro l
  induction l with
  | nil => intro st _; simp
  | cons s rest ih =>
    intro st h
    rw [List.foldl_cons, ih (chunkStep cs 0 st s) (by
      rw [chunkStep_zero_current cs st s h]; simp)]
    rw [chunkStep_zero_current cs st s h]
    simp

lemma joinSpace_eq_cons : ∀ (xs : List (List Char)) (x : List Char),
    joinSpace (x :: xs) = x ++ (xs.map (fun s => ' ' :: s)).join := by
  intro xs
  induction xs with
  | nil => intro x; simp [joinSpace]
  | cons y ys ih =>
    intro x
    rw [joinSpace_cons_cons, ih y]
    simp

lemma sentGo_false_head : ∀ (l acc : List Char), (acc ≠ [] ∨ l ≠ []) →
    ∃ s rest, sentGo false acc l = s :: rest ∧ s ≠ [] := by
  intro l
  induction l with
  | nil =>
    intro acc h
    rcases h with h | h
    · exact ⟨acc.reverse, [], rfl, by simpa using h⟩
    · exact absurd rfl h
  | cons c rest ih =>
    intro acc _
    rw [sentGo]
    simp only [Bool.false_and, Bool.false_eq_true, if_false]
    split_ifs with h2
    · exact ⟨acc.reverse ++ [c], sentGo true [] rest, rfl, by simp⟩
    · exact ih (c :: acc) (Or.inl (by simp))

/-- C3 (amended): with `overlap = 0`, `slice(-0)` returns the entire word
array, so the loop seeds every new chunk with the whole previous buffer;
the buffer never shrinks, and the FINAL chunk alone equals the whole text
with the sentence-boundary whitespace normalized to single spaces (and the
ends trimmed).  Concatenating all chunks therefore repeats earlier content
instead of round-tripping the text. -/
theorem chunkText_overlap_zero_last (text : List Char) (chunkSize : Nat)
    (htext : text ≠ [])
    (hnb : trimChars (joinSpace (splitSentences text)) ≠ []) :
    (chunkText text chunkSize 0).getLast? =
      some (trimChars (joinSpace (splitSentences text))) := by
  rcases sentGo_false_head text [] (Or.inr htext) with ⟨s, rest, heq, hs⟩
  have hsplit : splitSentences text = s :: rest := heq
  have hcur : (List.foldl (chunkStep chunkSize 0) ⟨[], []⟩ (splitSentences text)).current =
      joinSpace (splitSentences text) := by
    rw [hsplit, List.foldl_cons, chunkStep_zero_chunks_of_nil, joinSpace_eq_cons]
    exact fold_zero_current chunkSize rest ⟨[], s⟩ hs
  simp only [chunkText]
  rw [hcur, if_neg (by simpa using hnb)]
  exact List.getLast?_concat _

/-- Witness for the amended C3 theorem at a concrete input. -/
theorem chunkText_overlap_zero_last_witness :
    (chunkText "Hi. Yo.".data 5 0).getLast? =
      some (trimChars (joinSpace (splitSentences "Hi. Yo.".data))) :=
  chunkText_overlap_zero_last "Hi. Yo.".data 5 (by decide) (by decide)

/-- C3 (counterexample): `concat(chunk(text, size, 0)) == text` modulo
whitespace fails: for `text = "Aa. Bb."` and `size = 5` the chunker returns
`["Aa.", "Aa. Bb."]`, whose concatenation contains the first sentence twice
(the two sides differ even after deleting every whitespace character). -/
theorem chunkText_roundTrip_counterexample :
    chunkText "Aa. Bb.".data 5 0 = ["Aa.".data, "Aa. Bb.".data] ∧
      ((chunkText "Aa. Bb.".data 5 0).join.filter (fun c => !isWs c) ≠
        "Aa. Bb.".data.filter (fun c => !isWs c)) := by
  decide

/-- State of the `parseCSVLine` character loop: outside quotes, inside
quotes, or just saw a `"` while inside quotes (the lookahead deciding
between a `""` escape and a closing quote, rendered as a state so the
recursion stays structural). -/
inductive CSVMode
  | plain
  | quoted
  | quotePending
deriving DecidableEq, Repr

/-- Model of `parseCSVLine` (src/api/mcp.ts lines 93-118): split on unquoted
commas, with double-quoted fields and `""` escapes; each field is trimmed.
`cur` holds the reversed characters of the field being accumulated. -/
def parseCSVLineGo : CSVMode → List Char → List Char → List (List Char)
  | _, cur, [] => [trimChars cur.reverse]
  | CSVMode.plain, cur, c :: rest =>
    if c = '"' then parseCSVLineGo CSVMode.quoted cur rest
    else if c = ',' then trimChars cur.reverse :: parseCSVLineGo CSVMode.plain [] rest
    else parseCSVLineGo CSVMode.plain (c :: cur) rest
  | CSVMode.quoted, cur, c :: rest =>
    if c = '"' then parseCSVLineGo CSVMode.quotePending cur rest
    else parseCSVLineGo CSVMode.quoted (c :: cur) rest
  | CSVMode.quotePending, cur, c :: rest =>
    if c = '"' then parseCSVLineGo CSVMode.quoted ('"' :: cur) rest
    else if c = ',' then trimChars cur.reverse :: parseCSVLineGo CSVMode.plain [] rest
    else parseCSVLineGo CSVMode.plain (c :: cur) rest

def parseCSVLine (line : List Char) : List (List Char) :=
  parseCSVLineGo CSVMode.plain [] line

/-- `[f i, f (i+1), ..., f (i+k-1)]`: index-driven list construction, the
shape of `Array.from({length: k}, (_, i) => ...)`. -/
def buildIdx (f : Nat → List Char) : Nat → Nat → List (List Char)
  | _, 0 => []
  | i, k + 1 => f i :: buildIdx f (i + 1) k

/-- Model of `Array.from({length: headerCount}, (_, i) => values[i] || "")`:
the first `headerCount` parsed fields, padded with empty strings
(`undefined || ""` and `"" || ""` both yield `""`). -/
def paddedVals (n : Nat) (values : List (List Char)) : List (List Char) :=
  buildIdx (fun i => values.getD i []) 0 n

/-- Model of `headers.map((header, i) => header + ": " + paddedValues[i])`. -/
def csvPairsAux : Nat → List (List Char) → List (List Char) → List (List Char)
  | _, [], _ => []
  | i, h :: hs, padded => (h ++ ':' :: ' ' :: padded.getD i []) :: csvPairsAux (i + 1) hs padded

/-- The normalized text of one data row, given already-parsed field values
(the `.join(" | ")` of the header/value pairs). -/
def csvRowLineOfVals (headers values : List (List Char)) : List Char :=
  joinSep [' ', '|', ' '] (csvPairsAux 0 headers (paddedVals headers.length values))

/-- One normalized data row of `parseCSV` (src/api/mcp.ts lines 149-161). -/
def csvRowLine (headers : List (List Char)) (row : List Char) : List Char :=
  csvRowLineOfVals headers (parseCSVLine row)

lemma csvPairsAux_length : ∀ (hs : List (List Char)) (i : Nat) (padded : List (List Char)),
    (csvPairsAux i hs padded).length = hs.length := by
  intro hs
  induction hs with
  | nil => intro i padded; rfl
  | cons h t ih => intro i padded; simp [csvPairsAux, ih]

lemma buildIdx_getD (f : Nat → List Char) :
    ∀ (k i j : Nat), j < k → (buildIdx f i k).getD j [] = f (i + j) := by
  intro k
  induction k with
  | zero => intro i j h; cases h
  | succ n ih =>
    intro i j h
    cases j with
    | zero => simp [buildIdx]
    | succ m =>
      rw [buildIdx, List.getD_cons_succ, ih (i + 1) m (Nat.lt_of_succ_lt_succ h),
        show i + 1 + m = i + (m + 1) from by omega]

lemma csvPairsAux_getD : ∀ (hs : List (List Char)) (i j : Nat) (padded : List (List Char)),
    j < hs.length →
    (csvPairsAux i hs padded).getD j [] = hs.getD j [] ++ ':' :: ' ' :: padded.getD (i + j) [] := by
  intro hs
  induction hs with
  | nil => intro i j padded h; cases h
  | cons hd t ih =>
    intro i j padded h
    cases j with
    | zero => simp [csvPairsAux]
    | succ m =>
      rw [csvPairsAux, List.getD_cons_succ, List.getD_cons_succ,
        ih (i + 1) m padded (Nat.lt_of_succ_lt_succ h),
        show i + 1 + m = i + (m + 1) from by omega]

lemma getD_take {α : Type} : ∀ (l : List α) (n j : Nat) (d : α), j < n →
    (l.take n).getD j d = l.getD j d := by
  intro l
  induction l with
  | nil => intro n j d _; simp
  | cons a t ih =>
    intro n j d h
    cases n with
    | zero => cases h
    | succ m =>
      cases j with
      | zero => simp
      | succ k =>
        rw [List.take_succ_cons, List.getD_cons_succ, List.getD_cons_succ]
        exact ih m k d (Nat.lt_of_succ_lt_succ h)

lemma paddedVals_take (n : Nat) (values : List (List Char)) :
    paddedVals n (values.take n) = paddedVals n values := by
  unfold paddedVals
  have key : ∀ (k i : Nat), i + k ≤ n →
      buildIdx (fun j => (values.take n).getD j []) i k =
        buildIdx (fun j => values.getD j []) i k := by
    intro k
    induction k with
    | zero => intro i _; rfl
    | succ m ih =>
      intro i h
      rw [buildIdx, buildIdx, getD_take values n i [] (by omega), ih (i + 1) (by omega)]
  exact key n 0 (by omega)

/-- C10: in tabular normalization, every data row's normalized line has
exactly one `header: value` pair per header column (pair `j` is
`headers[j] ++ ": " ++ values[j]`, the missing values read as `""`), and
fields beyond the header count are silently discarded (the line depends only
on the first `headers.length` parsed fields). -/
theorem csvRow_pairs (headers : List (List Char)) (row : List Char) :
    (csvPairsAux 0 headers (paddedVals headers.length (parseCSVLine row))).length
        = headers.length
    ∧ (∀ j, j < headers.length →
        (csvPairsAux 0 headers (paddedVals headers.length (parseCSVLine row))).getD j []
          = headers.getD j [] ++ ':' :: ' ' :: (parseCSVLine row).getD j [])
    ∧ ∀ values : List (List Char),
        csvRowLineOfVals headers values = csvRowLineOfVals headers (values.take headers.length) := by
  refine ⟨csvPairsAux_length headers 0 _, ?_, ?_⟩
  · intro j hj
    rw [csvPairsAux_getD headers 0 j _ hj, Nat.zero_add,
      paddedVals, buildIdx_getD _ headers.length 0 j hj, Nat.zero_add]
  · intro values
    unfold csvRowLineOfVals
    rw [paddedVals_take headers.length values]

/-- Witness for C10 at a concrete input: header row `a,b`, data row `1,2,3`
(one extra field); the first pair of the normalized line is `a: 1`. -/
theorem csvRow_pairs_witness :
    (csvPairsAux 0 ["a".data, "b".data]
        (paddedVals (["a".data, "b".data] : List (List Char)).length
          (parseCSVLine "1,2,3".data))).getD 0 []
      = (["a".data, "b".data] : List (List Char)).getD 0 [] ++
          ':' :: ' ' :: (parseCSVLine "1,2,3".data).getD 0 [] :=
  (csvRow_pairs ["a".data, "b".data] "1,2,3".data).2.1 0 (by decide)

/-- Model of `csvContent.split(/\r?\n/)` (delimiters are `\r\n` or `\n`;
a lone `\r` stays in its line). -/
def splitLinesAux : List Char → List Char → List (List Char)
  | cur, [] => [cur.reverse]
  | cur, '\r' :: '\n' :: rest => cur.reverse :: splitLinesAux [] rest
  | cur, '\n' :: rest => cur.reverse :: splitLinesAux [] rest
  | cur, c :: rest => splitLinesAux (c :: cur) rest

def splitLines (content : List Char) : List (List Char) :=
  splitLinesAux [] content

/-- Document types supported by the engine. -/
inductive DocumentType
  | csv
  | pdf
deriving DecidableEq, Repr

/-- Model of the `DocumentChunk` interface (src/api/mcp.ts lines 27-31). -/
structure DocumentChunk where
  content : List Char
  pageNumber : Nat
  chunkIndex : Nat
deriving DecidableEq, Repr

/-- Model of the `ParsedDocument` interface (src/api/mcp.ts lines 33-40);
`parsedAt : Date` is modelled as a natural-number timestamp supplied by the
caller's clock. -/
structure ParsedDocument where
  filename : List Char
  fullText : List Char
  chunks : List DocumentChunk
  pageCount : Nat
  parsedAt : Nat
  type : DocumentType
deriving DecidableEq, Repr

/-- Cache key: the source uses the string `"{type}:{filename}"`; since the
two type prefixes `csv:`/`pdf:` never collide, the pair is a faithful key. -/
abbrev CacheKey := DocumentType × List Char

/-- The module-level `documentCache : Map<string, ParsedDocument>`, modelled
as an association list threaded through the parse operations.  The source
inserts only when the key is absent, so prepending has the same lookup
semantics as `Map.set`. -/
abbrev Cache := List (CacheKey × ParsedDocument)

def cacheFind : Cache → CacheKey → Option ParsedDocument
  | [], _ => none
  | (k, d) :: rest, key => if k = key then some d else cacheFind rest key

def cacheInsert (c : Cache) (k : CacheKey) (d : ParsedDocument) : Cache :=
  (k, d) :: c

/-- The engine's external collaborators: the filesystem under the two
storage roots (`existsSync` + `readFileSync`, `none` = missing file) and
the black-box `pdf-parse` text extraction (text and page count, or a
failure). -/
structure Env where
  csvFS : List Char → Option (List Char)
  pdfFS : List Char → Option (List Char)
  pdfExtract : List Char → Except Unit (List Char × Nat)

/-- `chunkText(textContent).map((content, index) => ({content, pageNumber: 1,
chunkIndex: index}))` of the CSV path. -/
def mkChunksCSV : Nat → List (List Char) → List DocumentChunk
  | _, [] => []
  | i, c :: cs => ⟨c, 1, i⟩ :: mkChunksCSV (i + 1) cs

/-- The PDF path's chunk list, with the `⌊chunkIndex/3⌋ + 1` page-number
approximation. -/
def mkChunksPDF : Nat → List (List Char) → List DocumentChunk
  | _, [] => []
  | i, c :: cs => ⟨c, i / 3 + 1, i⟩ :: mkChunksPDF (i + 1) cs

/-- Model of `parseCSV` (src/api/mcp.ts lines 123-180): validate, consult
the cache, read the file, drop blank lines, fail on an empty file, parse the
header row, normalize each data row, chunk, and publish the cache entry
only after success. -/
def parseCSV (env : Env) (now : Nat) (cache : Cache) (filename : List Char) :
    Except Err ParsedDocument × Cache :=
  match validateFilename filename with
  | .error e => (.error e, cache)
  | .ok _ =>
    match cacheFind cache (DocumentType.csv, filename) with
    | some doc => (.ok doc, cache)
    | none =>
      match env.csvFS filename with
      | none => (.error .notFound, cache)
      | some content =>
        match (splitLines content).filter (fun l => !(trimChars l).isEmpty) with
        | [] => (.error .emptyFile, cache)
        | headerLine :: rows =>
          let headers := parseCSVLine headerLine
          let textContent :=
            joinSep ['\n', '\n'] (rows.map (fun r => csvRowLine headers r))
          let doc : ParsedDocument :=
            ⟨filename, textContent, mkChunksCSV 0 (chunkText textContent 1000 200),
              1, now, DocumentType.csv⟩
          (.ok doc, cacheInsert cache (DocumentType.csv, filename) doc)

/-- Model of `parsePDF` (src/api/mcp.ts lines 185-220): validate, consult
the cache, read the file, extract text through the external collaborator,
chunk, and publish the cache entry only after success. -/
def parsePDF (env : Env) (now : Nat) (cache : Cache) (filename : List Char) :
    Except Err ParsedDocument × Cache :=
  match validateFilename filename with
  | .error e => (.error e, cache)
  | .ok _ =>
    match cacheFind cache (DocumentType.pdf, filename) with
    | some doc => (.ok doc, cache)
    | none =>
      match env.pdfFS filename with
      | none => (.error .notFound, cache)
      | some bytes =>
        match env.pdfExtract bytes with
        | .error _ => (.error .extraction, cache)
        | .ok (text, numpages) =>
          let doc : ParsedDocument :=
            ⟨filename, text, mkChunksPDF 0 (chunkText text 1000 200),
              numpages, now, DocumentType.pdf⟩
          (.ok doc, cacheInsert cache (DocumentType.pdf, filename) doc)

/-- Model of `parseDocument` (src/api/mcp.ts lines 225-231). -/
def parseDocument (env : Env) (now : Nat) (cache : Cache) (filename : List Char) :
    DocumentType → Except Err ParsedDocument × Cache
  | DocumentType.csv => parseCSV env now cache filename
  | DocumentType.pdf => parsePDF env now cache filename

lemma cacheFind_insert (c : Cache) (k : CacheKey) (d : ParsedDocument) :
    cacheFind (cacheInsert c k d) k = some d := by
  simp [cacheInsert, cacheFind]

lemma parseCSV_error_cache {env : Env} {now : Nat} {cache : Cache} {f : List Char}
    {e : Err} {res : Cache}
    (h : parseCSV env now cache f = (Except.error e, res)) : res = cache := by
  unfold parseCSV at h
  repeat' split at h
  all_goals simp_all

lemma parsePDF_error_cache {env : Env} {now : Nat} {cache : Cache} {f : List Char}
    {e : Err} {res : Cache}
    (h : parsePDF env now cache f = (Except.error e, res)) : res = cache := by
  unfold parsePDF at h
  repeat' split at h
  all_goals simp_all

lemma parseCSV_ok_cached {env : Env} {now : Nat} {cache : Cache} {f : List Char}
    {doc : ParsedDocument} {res : Cache}
    (h : parseCSV env now cache f = (Except.ok doc, res)) :
    validateFilename f = Except.ok () ∧ cacheFind res (DocumentType.csv, f) = some doc := by
  unfold parseCSV at h
  cases hv : validateFilename f with
  | error e => simp only [hv] at h; simp at h
  | ok u =>
    cases u
    simp only [hv] at h
    cases hc : cacheFind cache (DocumentType.csv, f) with
    | some d =>
      simp only [hc, Prod.mk.injEq, Except.ok.injEq] at h
      obtain ⟨h1, h2⟩ := h
      subst h1 h2
      exact ⟨rfl, hc⟩
    | none =>
      simp only [hc] at h
      cases he : env.csvFS f with
      | none => simp only [he] at h; simp at h
      | some content =>
        simp only [he] at h
        cases hl : (splitLines content).filter (fun l => !(trimChars l).isEmpty) with
        | nil => simp only [hl] at h; simp at h
        | cons headerLine rows =>
          simp only [hl, Prod.mk.injEq, Except.ok.injEq] at h
          obtain ⟨h1, h2⟩ := h
          subst h1 h2
          exact ⟨rfl, cacheFind_insert ..⟩

lemma parsePDF_ok_cached {env : Env} {now : Nat} {cache : Cache} {f : List Char}
    {doc : ParsedDocument} {res : Cache}
    (h : parsePDF env now cache f = (Except.ok doc, res)) :
    validateFilename f = Except.ok () ∧ cacheFind res (DocumentType.pdf, f) = some doc := by
  unfold parsePDF at h
  cases hv : validateFilename f with
  | error e => simp only [hv] at h; simp at h
  | ok u =>
    cases u
    simp only [hv] at h
    cases hc : cacheFind cache (DocumentType.pdf, f) with
    | some d =>
      simp only [hc, Prod.mk.injEq, Except.ok.injEq] at h
      obtain ⟨h1, h2⟩ := h
      subst h1 h2
      exact ⟨rfl, hc⟩
    | none =>
      simp only [hc] at h
      cases he : env.pdfFS f with
      | none => simp only [he] at h; simp at h
      | some bytes =>
        simp only [he] at h
        cases hx : env.pdfExtract bytes with
        | error u2 => simp only [hx] at h; simp at h
        | ok pr =>
          rcases pr with ⟨text, numpages⟩
          simp only [hx, Prod.mk.injEq, Except.ok.injEq] at h
          obtain ⟨h1, h2⟩ := h
          subst h1 h2
          exact ⟨rfl, cacheFind_insert ..⟩

lemma parseCSV_of_cached {env : Env} {now : Nat} {cache : Cache} {f : List Char}
    {doc : ParsedDocument}
    (hv : validateFilename f = Except.ok ())
    (hc : cacheFind cache (DocumentType.csv, f) = some doc) :
    parseCSV env now cache f = (Except.ok doc, cache) := by
  unfold parseCSV
  simp only [hv, hc]

lemma parsePDF_of_cached {env : Env} {now : Nat} {cache : Cache} {f : List Char}
    {doc : ParsedDocument}
    (hv : validateFilename f = Except.ok ())
    (hc : cacheFind cache (DocumentType.pdf, f) = some doc) :
    parsePDF env now cache f = (Except.ok doc, cache) := by
  unfold parsePDF
  simp only [hv, hc]

deriving instance DecidableEq for Except

/-- Failure test for `Except` results. -/
def isErr {A B : Type} : Except A B → Bool
  | Except.error _ => true
  | Except.ok _ => false

lemma parseDocument_failure_cache (env : Env) (now : Nat) (cache : Cache)
    (f : List Char) (ty : DocumentType)
    (h : isErr (parseDocument env now cache f ty).1 = true) :
    (parseDocument env now cache f ty).2 = cache := by
  cases hp : parseDocument env now cache f ty with
  | mk r res =>
    rw [hp] at h
    cases r with
    | ok d => simp [isErr] at h
    | error e =>
      cases ty with
      | csv => exact parseCSV_error_cache hp
      | pdf => exact parsePDF_error_cache hp

/-- C5: whenever a parse fails — for either document type and whatever the
failure (validation, missing file, empty tabular file, failed extraction) —
the document cache is left exactly as it was: no entry is published under
the key, so a later call for the same key will attempt the parse again. -/
theorem parse_failure_cache_unchanged (env : Env) (now : Nat) (cache : Cache)
    (f : List Char) (ty : DocumentType)
    (h : isErr (parseDocument env now cache f ty).1 = true) :
    (parseDocument env now cache f ty).2 = cache :=
  parseDocument_failure_cache env now cache f ty h

/-- The environment with no files at all (empty storage roots and a failing
extractor). -/
def envEmpty : Env :=
  ⟨fun _ => none, fun _ => none, fun _ => Except.error ()⟩

/-- Witness for C5: parsing a missing CSV fails with NotFoundError and the
empty cache stays empty. -/
theorem parse_failure_cache_unchanged_witness :
    (parseDocument envEmpty 0 [] "a.csv".data DocumentType.csv).2 = ([] : Cache) :=
  parse_failure_cache_unchanged envEmpty 0 [] "a.csv".data DocumentType.csv (by decide)

/-- C6: once a `(type, filename)` pair has been parsed successfully, every
subsequent call for the same pair returns the identical cached Document and
leaves the cache unchanged, regardless of the filesystem contents (`env2`)
and the current time (`now2`) of the later call — no storage access and no
re-parse. -/
theorem parse_cached_second_call (env env2 : Env) (now now2 : Nat) (cache : Cache)
    (f : List Char) (ty : DocumentType) (doc : ParsedDocument) (res : Cache)
    (h : parseDocument env now cache f ty = (Except.ok doc, res)) :
    parseDocument env2 now2 res f ty = (Except.ok doc, res) := by
  cases ty with
  | csv =>
    obtain ⟨hv, hc⟩ := parseCSV_ok_cached h
    exact parseCSV_of_cached hv hc
  | pdf =>
    obtain ⟨hv, hc⟩ := parsePDF_ok_cached h
    exact parsePDF_of_cached hv hc

/-- A one-file environment: a CSV named `a` whose content is the single
header line `h`. -/
def envOne : Env :=
  ⟨fun f => if f = "a".data then some "h".data else none,
   fun _ => none, fun _ => Except.error ()⟩

/-- The document `envOne` parses for `a` (header only, no data rows). -/
def docOne : ParsedDocument :=
  ⟨"a".data, [], [], 1, 0, DocumentType.csv⟩

/-- Witness for C6: after a successful first parse against `envOne` at time
0, a second call against the EMPTY filesystem at time 1 still returns the
cached document (with its original timestamp) and the unchanged cache. -/
theorem parse_cached_second_call_witness :
    parseDocument envEmpty 1 [((DocumentType.csv, "a".data), docOne)] "a".data
        DocumentType.csv
      = (Except.ok docOne, [((DocumentType.csv, "a".data), docOne)]) :=
  parse_cached_second_call envOne envEmpty 0 1 [] "a".data DocumentType.csv docOne
    [((DocumentType.csv, "a".data), docOne)] (by decide)

/-- ASCII model of `String.prototype.toLowerCase`. -/
def toLowerChar (c : Char) : Char :=
  if 'A' ≤ c && c ≤ 'Z' then Char.ofNat (c.toNat + 32) else c

def toLowerStr (l : List Char) : List Char :=
  l.map toLowerChar

/-- Model of `query.split(/\s+/)`; like the sentence splitter, the
whitespace run being consumed is tracked with a flag. -/
def splitWsGo : Bool → List Char → List Char → List (List Char)
  | _, acc, [] => [acc.reverse]
  | skipping, acc, c :: rest =>
    if isWs c then
      if skipping then splitWsGo true acc rest
      else acc.reverse :: splitWsGo true [] rest
    else splitWsGo false (c :: acc) rest

def splitWs (l : List Char) : List (List Char) :=
  splitWsGo false [] l

/-- Count of the non-overlapping matches of `lowerContent.match(new RegExp(term, "gi"))`
for a literal (metacharacter-free) term: leftmost matches, resuming after
each match's end.  The third argument counts characters still to skip after
a match. -/
def countGo : List Char → List Char → Nat → Nat
  | [], _, _ => 0
  | _ :: t, pat, Nat.succ k => countGo t pat k
  | c :: t, pat, 0 =>
    if startsList (c :: t) pat then 1 + countGo t pat (pat.length - 1)
    else countGo t pat 0

def countOccur (hay pat : List Char) : Nat :=
  countGo hay pat 0

/-- Score of one chunk in `searchDocument` (src/api/mcp.ts lines 239-252):
per-term occurrence counts plus a flat bonus of 10 when the lower-cased
content contains the full lower-cased query as a substring. -/
def scoreChunk (query content : List Char) : Nat :=
  ((splitWs (toLowerStr query)).filter (fun t => decide (2 < t.length))).foldl
      (fun acc t => acc + countOccur (toLowerStr content) t) 0 +
    (if containsSub (toLowerStr content) (toLowerStr query) then 10 else 0)

/-- Stable insertion into a descending-score list: an element moves past
exactly the strictly higher scores, so equal scores keep their original
order — the behavior of V8's stable `sort((a, b) => b.score - a.score)`. -/
def insertDesc {α : Type} (x : α × Nat) : List (α × Nat) → List (α × Nat)
  | [] => [x]
  | y :: ys => if x.2 < y.2 then y :: insertDesc x ys else x :: y :: ys

def sortDesc {α : Type} : List (α × Nat) → List (α × Nat)
  | [] => []
  | x :: xs => insertDesc x (sortDesc xs)

/-- Model of `searchDocument` (src/api/mcp.ts lines 236-259): score every
chunk, drop the zero scores, sort by descending score (stable), and return
the first `topK` chunks. -/
def searchDocument (doc : ParsedDocument) (query : List Char) (topK : Nat) :
    List DocumentChunk :=
  ((sortDesc ((doc.chunks.map (fun ch => (ch, scoreChunk query ch.content))).filter
      (fun p => decide (0 < p.2)))).take topK).map (fun p => p.1)

/-- One search hit of the `search_documentation` tool, tagged with the
owning document's identity. -/
structure SearchResult where
  filename : List Char
  docType : DocumentType
  chunk : DocumentChunk
deriving DecidableEq, Repr

/-- Model of the document loop of `executeTool("search_documentation")`
(src/api/mcp.ts lines 314-324): parse each candidate through the cache,
search it, tag the hits with the document identity; a document whose parse
fails is skipped (`catch` logs and continues). -/
def searchLoop (env : Env) (now : Nat) (query : List Char) (topK : Nat) :
    Cache → List (List Char × DocumentType) → List SearchResult × Cache
  | cache, [] => ([], cache)
  | cache, d :: ds =>
    match parseDocument env now cache d.1 d.2 with
    | (Except.ok doc, cache2) =>
      let rest := searchLoop env now query topK cache2 ds
      ((searchDocument doc query topK).map (fun ch => ⟨d.1, d.2, ch⟩) ++ rest.1, rest.2)
    | (Except.error _, cache2) => searchLoop env now query topK cache2 ds

/-- Model of the result assembly of `executeTool("search_documentation")`
(line 330): the accumulated per-document results are truncated to the first
`topK` — `allResults.slice(0, topK)` — with no re-sort across documents. -/
def searchAcross (env : Env) (now : Nat) (cache : Cache)
    (docs : List (List Char × DocumentType)) (query : List Char) (topK : Nat) :
    List SearchResult × Cache :=
  ((searchLoop env now query topK cache docs).1.take topK,
   (searchLoop env now query topK cache docs).2)

lemma searchLoop_skip_head (env : Env) (now : Nat) (q : List Char) (k : Nat)
    (cache : Cache) (d : List Char × DocumentType)
    (ds : List (List Char × DocumentType))
    (h : isErr (parseDocument env now cache d.1 d.2).1 = true) :
    searchLoop env now q k cache (d :: ds) = searchLoop env now q k cache ds := by
  cases hp : parseDocument env now cache d.1 d.2 with
  | mk r c2 =>
    rw [hp] at h
    cases r with
    | ok doc => simp [isErr] at h
    | error e =>
      have hc : c2 = cache := by
        have h2 := parseDocument_failure_cache env now cache d.1 d.2 (by rw [hp]; rfl)
        rw [hp] at h2
        exact h2
      simp only [searchLoop, hp, hc]

/-- C7: during a search across multiple candidate documents, a document
whose parse fails (at the cache state reached at its turn) is skipped and
the search returns exactly what it returns for the candidate list without
that document. -/
theorem search_skips_failed_document (env : Env) (now : Nat) (q : List Char) (k : Nat)
    (cache : Cache) (pre post : List (List Char × DocumentType))
    (d : List Char × DocumentType)
    (h : isErr (parseDocument env now (searchLoop env now q k cache pre).2 d.1 d.2).1
        = true) :
    searchLoop env now q k cache (pre ++ d :: post) =
      searchLoop env now q k cache (pre ++ post) := by
  induction pre generalizing cache with
  | nil =>
    simp only [searchLoop] at h
    simp only [List.nil_append]
    exact searchLoop_skip_head env now q k cache d post h
  | cons p ps ih =>
    simp only [List.cons_append]
    cases hp : parseDocument env now cache p.1 p.2 with
    | mk r c2 =>
      cases r with
      | ok doc =>
        simp only [searchLoop, hp] at h ⊢
        rw [ih c2 h]
      | error e =>
        simp only [searchLoop, hp] at h ⊢
        rw [ih c2 h]

/-- Witness for C7: with the empty storage, the single candidate fails to
parse and the search equals the search over no candidates. -/
theorem search_skips_failed_document_witness :
    searchLoop envEmpty 0 "q".data 5 [] [("a.csv".data, DocumentType.csv)] =
      searchLoop envEmpty 0 "q".data 5 [] [] :=
  search_skips_failed_document envEmpty 0 "q".data 5 [] [] []
    ("a.csv".data, DocumentType.csv) (by decide)

lemma insertDesc_const {α : Type} (x : α × Nat) (l : List (α × Nat))
    (h : ∀ y ∈ l, y.2 ≤ x.2) : insertDesc x l = x :: l := by
  cases l with
  | nil => rfl
  | cons y ys =>
    rw [insertDesc, if_neg]
    exact Nat.not_lt.mpr (h y (List.mem_cons_self y ys))

lemma sortDesc_const {α : Type} (n : Nat) : ∀ l : List (α × Nat),
    (∀ y ∈ l, y.2 = n) → sortDesc l = l := by
  intro l
  induction l with
  | nil => intro _; rfl
  | cons x xs ih =>
    intro h
    rw [sortDesc, ih (fun y hy => h y (List.mem_cons_of_mem x hy)),
      insertDesc_const x xs (fun y hy => by
        rw [h y (List.mem_cons_of_mem x hy), h x (List.mem_cons_self x xs)])]

lemma toLowerChar_ws {c : Char} (h : isWs c = true) : toLowerChar c = c := by
  simp only [isWs, Bool.or_eq_true, decide_eq_true_eq] at h
  rcases h with ((h | h) | h) | h <;> subst h <;> decide

lemma toLowerStr_ws {q : List Char} (h : ∀ c ∈ q, isWs c = true) :
    toLowerStr q = q := by
  induction q with
  | nil => rfl
  | cons c rest ih =>
    unfold toLowerStr at ih ⊢
    rw [List.map_cons, toLowerChar_ws (h c (List.mem_cons_self c rest)),
      ih (fun x hx => h x (List.mem_cons_of_mem c hx))]

lemma splitWsGo_all_nil : ∀ (l : List Char) (skipping : Bool),
    (∀ c ∈ l, isWs c = true) → ∀ s ∈ splitWsGo skipping [] l, s = [] := by
  intro l
  induction l with
  | nil =>
    intro skipping _ s hs
    simp only [splitWsGo, List.mem_singleton] at hs
    simpa using hs
  | cons c rest ih =>
    intro skipping h s hs
    rw [splitWsGo, if_pos (h c (List.mem_cons_self c rest))] at hs
    split_ifs at hs with hskip
    · exact ih true (fun x hx => h x (List.mem_cons_of_mem c hx)) s hs
    · simp only [List.mem_cons, List.reverse_nil] at hs
      rcases hs with rfl | hs
      · rfl
      · exact ih true (fun x hx => h x (List.mem_cons_of_mem c hx)) s hs

lemma scoreChunk_ws (q content : List Char) (h : ∀ c ∈ q, isWs c = true) :
    scoreChunk q content = if containsSub (toLowerStr content) q then 10 else 0 := by
  unfold scoreChunk
  rw [toLowerStr_ws h]
  have hterms : (splitWs q).filter (fun t => decide (2 < t.length)) = [] := by
    rw [List.filter_eq_nil_iff]
    intro s hs
    rw [splitWsGo_all_nil q false h s hs]
    simp
  rw [hterms]
  simp [List.foldl]

/-- C2 (amended): an empty or whitespace-only query does not fail, but it
does NOT return an empty result set: it yields zero term matches, yet every
chunk whose lower-cased text contains the query as a substring — every
chunk, when the query is the empty string, since `includes("")` is always
true — still receives the exact-phrase bonus of 10, so the search returns
the first `topK` such chunks in document order. -/
theorem searchDocument_ws_query (doc : ParsedDocument) (q : List Char) (k : Nat)
    (h : ∀ c ∈ q, isWs c = true) :
    searchDocument doc q k =
      (doc.chunks.filter (fun ch => containsSub (toLowerStr ch.content) q)).take k := by
  unfold searchDocument
  have hfil : (doc.chunks.map (fun ch => (ch, scoreChunk q ch.content))).filter
      (fun p => decide (0 < p.2)) =
      (doc.chunks.filter (fun ch => containsSub (toLowerStr ch.content) q)).map
        (fun ch => (ch, scoreChunk q ch.content)) := by
    rw [List.filter_map]
    congr 1
    apply List.filter_congr
    intro ch _
    simp only [Function.comp]
    simp only [scoreChunk_ws q ch.content h]
    cases hcs : containsSub (toLowerStr ch.content) q <;> simp [hcs]
  rw [hfil, sortDesc_const 10 _ (by
    intro y hy
    rcases List.mem_map.mp hy with ⟨ch, hch, rfl⟩
    have hcs : containsSub (toLowerStr ch.content) q = true :=
      (List.mem_filter.mp hch).2
    rw [scoreChunk_ws q ch.content h, if_pos hcs]), ← List.map_take, List.map_map]
  have hid : ((fun p : DocumentChunk × Nat => p.1) ∘ fun ch => (ch, scoreChunk q ch.content))
      = id := by
    funext ch
    rfl
  rw [hid, List.map_id]

/-- The one-chunk document used for the scorer counterexamples. -/
def docAbc : ParsedDocument :=
  ⟨"d".data, "abc".data, [⟨"abc".data, 1, 0⟩], 1, 0, DocumentType.csv⟩

/-- Witness for the amended C2 theorem at the empty query. -/
theorem searchDocument_ws_query_witness :
    searchDocument docAbc [] 5 =
      (docAbc.chunks.filter (fun ch => containsSub (toLowerStr ch.content) [])).take 5 :=
  searchDocument_ws_query docAbc [] 5 (by decide)

/-- C2 (counterexample): searching a document with one chunk `abc` for the
empty query returns that chunk (score 10 from the substring bonus), not an
empty result set. -/
theorem searchDocument_empty_query_counterexample :
    searchDocument docAbc [] 5 = [⟨"abc".data, 1, 0⟩] ∧
      searchDocument docAbc [] 5 ≠ [] := by
  decide

lemma mem_insertDesc {α : Type} (x z : α × Nat) : ∀ (l : List (α × Nat)),
    z ∈ insertDesc x l ↔ z = x ∨ z ∈ l := by
  intro l
  induction l with
  | nil => simp [insertDesc]
  | cons y ys ih =>
    rw [insertDesc]
    split_ifs with h
    · simp only [List.mem_cons, ih]
      tauto
    · simp [List.mem_cons]

lemma insertDesc_perm {α : Type} (x : α × Nat) : ∀ (l : List (α × Nat)),
    List.Perm (insertDesc x l) (x :: l) := by
  intro l
  induction l with
  | nil => exact List.Perm.refl _
  | cons y ys ih =>
    rw [insertDesc]
    split_ifs with h
    · exact (ih.cons y).trans (List.Perm.swap x y ys)
    · exact List.Perm.refl _

lemma sortDesc_perm {α : Type} : ∀ (l : List (α × Nat)), List.Perm (sortDesc l) l := by
  intro l
  induction l with
  | nil => exact List.Perm.refl _
  | cons x xs ih => exact (insertDesc_perm x (sortDesc xs)).trans (ih.cons x)

lemma pairwise_insertDesc {α : Type} (x : α × Nat) : ∀ (l : List (α × Nat)),
    List.Pairwise (fun a b => b.2 ≤ a.2) l →
    List.Pairwise (fun a b => b.2 ≤ a.2) (insertDesc x l) := by
  intro l
  induction l with
  | nil => intro _; simp [insertDesc]
  | cons y ys ih =>
    intro h
    rw [List.pairwise_cons] at h
    obtain ⟨hy, hys⟩ := h
    rw [insertDesc]
    split_ifs with hlt
    · rw [List.pairwise_cons]
      refine ⟨?_, ih hys⟩
      intro z hz
      rcases (mem_insertDesc x z ys).mp hz with rfl | hz
      · exact Nat.le_of_lt hlt
      · exact hy z hz
    · rw [List.pairwise_cons]
      refine ⟨?_, List.pairwise_cons.mpr ⟨hy, hys⟩⟩
      intro z hz
      rcases List.mem_cons.mp hz with rfl | hz
      · exact Nat.not_lt.mp hlt
      · exact Nat.le_trans (hy z hz) (Nat.not_lt.mp hlt)

lemma sortDesc_pairwise {α : Type} : ∀ (l : List (α × Nat)),
    List.Pairwise (fun a b => b.2 ≤ a.2) (sortDesc l) := by
  intro l
  induction l with
  | nil => exact List.Pairwise.nil
  | cons x xs ih => exact pairwise_insertDesc x (sortDesc xs) ih

/-- The scored-and-filtered chunk list inside `searchDocument`. -/
def scoredFiltered (q : List Char) (chunks : List DocumentChunk) :
    List (DocumentChunk × Nat) :=
  (chunks.map (fun ch => (ch, scoreChunk q ch.content))).filter
    (fun p => decide (0 < p.2))

lemma searchDocument_eq (doc : ParsedDocument) (q : List Char) (k : Nat) :
    searchDocument doc q k =
      ((sortDesc (scoredFiltered q doc.chunks)).take k).map (fun p => p.1) := rfl

lemma mem_scoredFiltered {q : List Char} {chunks : List DocumentChunk}
    {p : DocumentChunk × Nat} (hp : p ∈ scoredFiltered q chunks) :
    p.1 ∈ chunks ∧ p.2 = scoreChunk q p.1.content ∧ 0 < p.2 := by
  obtain ⟨hm, hd⟩ := List.mem_filter.mp hp
  rcases List.mem_map.mp hm with ⟨ch, hch, rfl⟩
  exact ⟨hch, rfl, by simpa using hd⟩

lemma searchLoop_ids (env : Env) (now : Nat) (q : List Char) (k : Nat) :
    ∀ (docs : List (List Char × DocumentType)) (cache : Cache),
      ∀ r ∈ (searchLoop env now q k cache docs).1, (r.filename, r.docType) ∈ docs := by
  intro docs
  induction docs with
  | nil => intro cache r hr; simp [searchLoop] at hr
  | cons d ds ih =>
    intro cache r hr
    cases hp : parseDocument env now cache d.1 d.2 with
    | mk res c2 =>
      cases res with
      | ok doc =>
        simp only [searchLoop, hp, List.mem_append] at hr
        rcases hr with hr | hr
        · rcases List.mem_map.mp hr with ⟨ch, _, rfl⟩
          exact List.mem_cons_self d ds
        · exact List.mem_cons_of_mem d (ih c2 r hr)
      | error e =>
        simp only [searchLoop, hp] at hr
        exact List.mem_cons_of_mem d (ih c2 r hr)

def chunkLow : DocumentChunk := ⟨"xxx".data, 1, 0⟩

def chunkHigh : DocumentChunk := ⟨"xxx xxx".data, 1, 0⟩

def docLow : ParsedDocument := ⟨"a".data, "xxx".data, [chunkLow], 1, 0, DocumentType.csv⟩

def docHigh : ParsedDocument :=
  ⟨"b".data, "xxx xxx".data, [chunkHigh], 1, 0, DocumentType.csv⟩

def cacheTwo : Cache :=
  [((DocumentType.csv, "a".data), docLow), ((DocumentType.csv, "b".data), docHigh)]

/-- C1 (counterexample): searching two cached candidate documents for
`xxx` with `topK = 1` returns the chunk of the FIRST document (score 11)
even though the second document's chunk scores strictly higher (12): the
loop takes each document's own top-K and then truncates `allResults` in
catalog order (`slice(0, topK)`), with no re-ranking across documents, so
the result is not the global top-K in descending score order. -/
theorem searchAcross_not_globally_ranked_counterexample :
    (searchAcross envEmpty 0 cacheTwo
        [("a".data, DocumentType.csv), ("b".data, DocumentType.csv)] "xxx".data 1).1
      = [⟨"a".data, DocumentType.csv, chunkLow⟩] ∧
    chunkHigh ∈ docHigh.chunks ∧
    (⟨"b".data, DocumentType.csv, chunkHigh⟩ : SearchResult) ∉
      (searchAcross envEmpty 0 cacheTwo
        [("a".data, DocumentType.csv), ("b".data, DocumentType.csv)] "xxx".data 1).1 ∧
    scoreChunk "xxx".data chunkLow.content < scoreChunk "xxx".data chunkHigh.content := by
  decide

/-- C1 (amended): the search returns the first `topK` of the per-document
result blocks in catalog order — NOT a global re-ranking.  Each result is
tagged with a candidate document's identity; within one document,
`searchDocument` returns at most `topK` of that document's chunks, all with
positive scores, in descending score order, and it omits no chunk of the
document that scores strictly higher than a returned one. -/
theorem search_results_per_document_ranked (env : Env) (now : Nat) (cache : Cache)
    (docs : List (List Char × DocumentType)) (q : List Char) (k : Nat)
    (doc : ParsedDocument) :
    (searchAcross env now cache docs q k).1 =
        ((searchLoop env now q k cache docs).1).take k
    ∧ (∀ r ∈ (searchAcross env now cache docs q k).1, (r.filename, r.docType) ∈ docs)
    ∧ (searchDocument doc q k).length ≤ k
    ∧ List.Pairwise (fun a b : DocumentChunk =>
        scoreChunk q b.content ≤ scoreChunk q a.content) (searchDocument doc q k)
    ∧ (∀ c ∈ searchDocument doc q k, c ∈ doc.chunks ∧ 0 < scoreChunk q c.content)
    ∧ (∀ r ∈ searchDocument doc q k, ∀ c ∈ doc.chunks,
        scoreChunk q r.content < scoreChunk q c.content → c ∈ searchDocument doc q k) := by
  refine ⟨rfl, ?_, ?_, ?_, ?_, ?_⟩
  · intro r hr
    exact searchLoop_ids env now q k docs cache r (List.mem_of_mem_take hr)
  · rw [searchDocument_eq, List.length_map]
    exact List.length_take_le k _
  · rw [searchDocument_eq, List.pairwise_map]
    refine List.Pairwise.imp_of_mem ?_
      (List.Pairwise.sublist (List.take_sublist k _) (sortDesc_pairwise _))
    intro a b ha hb hab
    obtain ⟨_, ha2, _⟩ := mem_scoredFiltered
      ((sortDesc_perm _).subset (List.mem_of_mem_take ha))
    obtain ⟨_, hb2, _⟩ := mem_scoredFiltered
      ((sortDesc_perm _).subset (List.mem_of_mem_take hb))
    rw [← ha2, ← hb2]
    exact hab
  · intro c hc
    rw [searchDocument_eq] at hc
    rcases List.mem_map.mp hc with ⟨p, hp, rfl⟩
    obtain ⟨h1, h2, h3⟩ := mem_scoredFiltered
      ((sortDesc_perm _).subset (List.mem_of_mem_take hp))
    exact ⟨h1, h2 ▸ h3⟩
  · intro r hr c hcchunks hlt
    rw [searchDocument_eq] at hr ⊢
    rcases List.mem_map.mp hr with ⟨pr, hpr, rfl⟩
    obtain ⟨_, hpr2, _⟩ := mem_scoredFiltered
      ((sortDesc_perm _).subset (List.mem_of_mem_take hpr))
    have hpcS : (c, scoreChunk q c.content) ∈ scoredFiltered q doc.chunks := by
      apply List.mem_filter.mpr
      refine ⟨List.mem_map_of_mem _ hcchunks, ?_⟩
      simp only [decide_eq_true_eq]
      exact Nat.lt_of_le_of_lt (Nat.zero_le _) hlt
    have hpcSorted : (c, scoreChunk q c.content) ∈ sortDesc (scoredFiltered q doc.chunks) :=
      (sortDesc_perm _).mem_iff.mpr hpcS
    have hsplit : (c, scoreChunk q c.content) ∈
        (sortDesc (scoredFiltered q doc.chunks)).take k ++
          (sortDesc (scoredFiltered q doc.chunks)).drop k := by
      rw [List.take_append_drop]
      exact hpcSorted
    rcases List.mem_append.mp hsplit with hin | hdrop
    · exact List.mem_map_of_mem _ hin
    · exfalso
      have hpw := sortDesc_pairwise (scoredFiltered q doc.chunks)
      rw [← List.take_append_drop k (sortDesc (scoredFiltered q doc.chunks))] at hpw
      have hle := (List.pairwise_append.mp hpw).2.2 pr hpr _ hdrop
      rw [hpr2] at hle
      exact absurd hlt (Nat.not_lt.mpr (by simpa using hle))

/-- Witness for the amended C1 theorem: in a two-chunk document where the
second chunk scores higher than the first, the last conjunct forces the
higher-scoring chunk into the result set. -/
theorem search_results_per_document_ranked_witness :
    chunkHigh ∈ searchDocument
      ⟨"w".data, [], [chunkLow, chunkHigh], 1, 0, DocumentType.csv⟩ "xxx".data 2 :=
  (search_results_per_document_ranked envEmpty 0 [] [] "xxx".data 2
      ⟨"w".data, [], [chunkLow, chunkHigh], 1, 0, DocumentType.csv⟩).2.2.2.2.2
    chunkLow (by decide) chunkHigh (by decide) (by decide)

/-- Witness for C4 at a concrete input: a filename containing `/` is
rejected with ValidationError. -/
theorem validateFilename_fails_iff_witness :
    validateFilename "a/b".data = Except.error Err.validation :=
  (validateFilename_fails_iff "a/b".data).1.mpr
    (Or.inr (Or.inr (Or.inl (by decide))))
